import Mathlib

/-!
Verification of the time-binning engine of photon-tools against its
specification.

The source function is `bin_photons` in `bin_photons.pyx`:

* `times` is a sorted array of `uint64` photon timestamps. Two models
  are given. `bin_photons` does timestamp arithmetic in unbounded `Nat`;
  `bin_photons_u64` additionally wraps the single `uint64` sum the loop
  computes, `bin_start + bin_width`, modulo `2^64` exactly as the C
  arithmetic does (the other timestamp operations — the floor division
  and the multiplication back — cannot exceed their operand and never
  wrap). The two models agree whenever that sum stays below `2^64`
  (`bin_photons_u64_eq_no_wrap`); they differ when a timestamp lies
  within `bin_width` of `2^64`, where the wrapped bound makes the
  source re-enter the same `bin_start` and emit duplicate starts.
* `bin_width` is a positive C `int`; modelled as `Nat` (all claims
  assume `bin_width > 0`; Python raises on `range` step 0 and C
  division by 0 is undefined, so no claim depends on `bin_width = 0`).
* `start_t` and `end_t` use the all-ones `uint64` sentinel (`-1`) for
  "unspecified"; we model them as `Option Nat` (`none` = sentinel).
* the per-bin counter `bin_count` is a C `short` stored into a `u2`
  (16-bit) record field, so the stored value is the running count
  modulo `2^16`; the model keeps the counter reduced mod `65536` at
  each increment, which yields exactly the stored 16-bit values.
* when `start_t` is unspecified and `times` is empty, the source
  evaluates `times[0]` out of bounds (an `IndexError` under Cython's
  default bounds checking); the model returns `none` in that case and
  `some` of the produced bin list otherwise.
* output buffering follows the source exactly: bins are written into a
  fixed 10,000-entry chunk which is flushed to a chunk list when full
  (`np.empty` contents beyond the write index are garbage, so a chunk
  is represented by its written part), the partial last chunk is
  appended, and everything is concatenated (`np.hstack`).
-/

namespace PhotonTools

/-- Output record of `bin_photons`: the `bin_dtype` record with fields
`start_t` (u8 = 64-bit start time) and `count` (u2 = 16-bit count; the
model stores the value of the 16-bit field as a `Nat < 65536`). -/
structure Bin where
  start_t : Nat
  count : Nat
deriving DecidableEq

/-- Python `range a b step` for a non-negative step, written with
explicit fuel so that recursion is structural; `fuel = b - a` is always
enough since each iteration advances by `step ≥ 1`. Empty when
`step = 0`, matching the fact that no claim exercises that case. -/
def rangeStepAux : Nat → Nat → Nat → Nat → List Nat
  | 0, _, _, _ => []
  | n + 1, a, b, step => if 0 < step ∧ a < b then a :: rangeStepAux n (a + step) b step else []

/-- Python `range a b step` (`step > 0`): `[a, a + step, ...]` while `< b`. -/
def rangeStep (a b step : Nat) : List Nat := rangeStepAux (b - a) a b step

/-- The zero-count bins written by `for j in range(a, b, w): chunk[bin] = (j, 0)`. -/
def zeroRange (a b w : Nat) : List Bin := (rangeStep a b w).map (fun j => ⟨j, 0⟩)

/-- chunk_sz = 10000 in the source. -/
def chunk_sz : Nat := 10000

/-- Chunked output buffer: `chunks` holds the flushed full chunks, `chunk`
the written part of the current chunk (the write index `bin` of the source
is `chunk.length`). -/
structure ChunkSt where
  chunks : List (List Bin)
  chunk : List Bin
deriving DecidableEq

/-- Write one bin at the current index and flush the chunk when it
reaches `chunk_sz` entries, as the source does after each write. -/
def pushBin (cs : ChunkSt) (b : Bin) : ChunkSt :=
  if (cs.chunk ++ [b]).length = chunk_sz then ⟨cs.chunks ++ [cs.chunk ++ [b]], []⟩
  else ⟨cs.chunks, cs.chunk ++ [b]⟩

/-- Final `chunks.append(chunk[:bin]); np.hstack(chunks)`. -/
def hstack (cs : ChunkSt) : List Bin := (cs.chunks ++ [cs.chunk]).flatten

/-- Scalar loop state: `bin_start` (uint64) and `bin_count` (the 16-bit
counter, kept reduced modulo 2^16). -/
structure Scal where
  bin_start : Nat
  bin_count : Nat
deriving DecidableEq

/-- Bins written by one iteration of the loop body for event `t`: on a
boundary crossing (`times[i] >= bin_start + bin_width`) the current bin is
written, followed — when `include_zeros` — by a zero-count bin for every
multiple of `bin_width` in `range(bin_start + bin_width, new_start,
bin_width)` with `new_start = (times[i] / bin_width) * bin_width`. -/
def loopEmits (w : Nat) (include_zeros : Bool) (s : Scal) (t : Nat) : List Bin :=
  if s.bin_start + w ≤ t then
    ⟨s.bin_start, s.bin_count⟩ ::
      (if include_zeros then zeroRange (s.bin_start + w) (t / w * w) w else [])
  else []

/-- Scalar state after one iteration: on a crossing, `bin_start` becomes the
aligned `new_start` and `bin_count` is reset to 0; in every case
`bin_count += 1` counts the current event (16-bit wrap). -/
def loopStep (w : Nat) (s : Scal) (t : Nat) : Scal :=
  if s.bin_start + w ≤ t then ⟨t / w * w, (0 + 1) % 65536⟩
  else ⟨s.bin_start, (s.bin_count + 1) % 65536⟩

/-- Idealized scalar state update with an unbounded (exact) counter, used
to express what the 16-bit counter wraps from. -/
def loopStepWide (w : Nat) (s : Scal) (t : Nat) : Scal :=
  if s.bin_start + w ≤ t then ⟨t / w * w, 0 + 1⟩
  else ⟨s.bin_start, s.bin_count + 1⟩

/-- One loop iteration acting on the chunked buffer and the scalar state. -/
def stepChunked (w : Nat) (iz : Bool) (p : ChunkSt × Scal) (t : Nat) : ChunkSt × Scal :=
  ((loopEmits w iz p.2 t).foldl pushBin p.1, loopStep w p.2 t)

/-- One loop iteration acting on a single dynamically grown output list
(the buffering-free reference the chunked buffer must agree with). -/
def stepList (w : Nat) (iz : Bool) (p : List Bin × Scal) (t : Nat) : List Bin × Scal :=
  (p.1 ++ loopEmits w iz p.2 t, loopStep w p.2 t)

/-- One loop iteration with the exact (unbounded) counter. -/
def stepListWide (w : Nat) (iz : Bool) (p : List Bin × Scal) (t : Nat) : List Bin × Scal :=
  (p.1 ++ loopEmits w iz p.2 t, loopStepWide w p.2 t)

/-- Bins written after the loop: `if include_zeros and end_t != -1:
for j in range(bin_start + bin_width, end_t, bin_width): (j, 0)`. -/
def trailing (w : Nat) (iz : Bool) (end_t : Option Nat) (s : Scal) : List Bin :=
  match end_t with
  | some e => if iz then zeroRange (s.bin_start + w) e w else []
  | none => []

/-- The anchor from which the first bin start is derived:
`times[0] if start_t == -1 else start_t`. Reading `times[0]` of an empty
array is out of bounds (`IndexError`), modelled by `none`. -/
def anchor (times : List Nat) (start_t : Option Nat) : Option Nat :=
  match start_t with
  | some s => some s
  | none => times.head?

/-- The source function `bin_photons`, chunked buffering included.
`bin_start` is floor-aligned (`(bin_start / bin_width) * bin_width`), the
events are folded through the loop body, the trailing zero bins are
written, and the chunks are concatenated. Returns `none` exactly when the
source raises on `times[0]`. -/
def bin_photons (times : List Nat) (bin_width : Nat) (start_t end_t : Option Nat)
    (include_zeros : Bool) : Option (List Bin) :=
  (anchor times start_t).map (fun a =>
    hstack
      ((trailing bin_width include_zeros end_t
          (times.foldl (stepChunked bin_width include_zeros)
            (⟨[], []⟩, ⟨a / bin_width * bin_width, 0⟩)).2).foldl
        pushBin
        (times.foldl (stepChunked bin_width include_zeros)
          (⟨[], []⟩, ⟨a / bin_width * bin_width, 0⟩)).1))

/-- The same computation accumulating all bins in one dynamically grown
list instead of fixed-capacity chunks. -/
def bin_photons_list (times : List Nat) (bin_width : Nat) (start_t end_t : Option Nat)
    (include_zeros : Bool) : Option (List Bin) :=
  (anchor times start_t).map (fun a =>
    (times.foldl (stepList bin_width include_zeros)
      ([], ⟨a / bin_width * bin_width, 0⟩)).1
    ++ trailing bin_width include_zeros end_t
        (times.foldl (stepList bin_width include_zeros)
          ([], ⟨a / bin_width * bin_width, 0⟩)).2)

/-- The same computation with an exact (unbounded) per-bin counter, used
to state what the stored 16-bit counts are the reduction of. -/
def bin_photons_wide (times : List Nat) (bin_width : Nat) (start_t end_t : Option Nat)
    (include_zeros : Bool) : Option (List Bin) :=
  (anchor times start_t).map (fun a =>
    (times.foldl (stepListWide bin_width include_zeros)
      ([], ⟨a / bin_width * bin_width, 0⟩)).1
    ++ trailing bin_width include_zeros end_t
        (times.foldl (stepListWide bin_width include_zeros)
          ([], ⟨a / bin_width * bin_width, 0⟩)).2)

/-- Reduction of an exact count to the stored 16-bit field value. -/
def wrapCount (b : Bin) : Bin := ⟨b.start_t, b.count % 65536⟩

/-- Modulus of the C `uint64` arithmetic on timestamps. -/
def U64 : Nat := 2 ^ 64

/-- Bins written by one loop iteration, with the `uint64` wrap of
`bin_start + bin_width` made explicit: both the crossing comparison
`times[i] >= bin_start + bin_width` and the zero-fill range start use the
wrapped sum. Faithful for timestamp values below `2^64`. -/
def loopEmitsU (w : Nat) (include_zeros : Bool) (s : Scal) (t : Nat) : List Bin :=
  if (s.bin_start + w) % U64 ≤ t then
    ⟨s.bin_start, s.bin_count⟩ ::
      (if include_zeros then zeroRange ((s.bin_start + w) % U64) (t / w * w) w else [])
  else []

/-- Scalar state update of one loop iteration with the `uint64` wrap of
the crossing bound made explicit. -/
def loopStepU (w : Nat) (s : Scal) (t : Nat) : Scal :=
  if (s.bin_start + w) % U64 ≤ t then ⟨t / w * w, (0 + 1) % 65536⟩
  else ⟨s.bin_start, (s.bin_count + 1) % 65536⟩

/-- One loop iteration of the wrapped model on the chunked buffer. -/
def stepChunkedU (w : Nat) (iz : Bool) (p : ChunkSt × Scal) (t : Nat) : ChunkSt × Scal :=
  ((loopEmitsU w iz p.2 t).foldl pushBin p.1, loopStepU w p.2 t)

/-- Post-loop zero-fill with the `uint64` wrap of its range start
`bin_start + bin_width` made explicit. -/
def trailingU (w : Nat) (iz : Bool) (end_t : Option Nat) (s : Scal) : List Bin :=
  match end_t with
  | some e => if iz then zeroRange ((s.bin_start + w) % U64) e w else []
  | none => []

/-- The source function with the `uint64` wrap of `bin_start + bin_width`
modelled exactly: identical to `bin_photons` except that every occurrence
of that sum is reduced modulo `2^64`, as the C arithmetic computes it. -/
def bin_photons_u64 (times : List Nat) (bin_width : Nat) (start_t end_t : Option Nat)
    (include_zeros : Bool) : Option (List Bin) :=
  (anchor times start_t).map (fun a =>
    hstack
      ((trailingU bin_width include_zeros end_t
          (times.foldl (stepChunkedU bin_width include_zeros)
            (⟨[], []⟩, ⟨a / bin_width * bin_width, 0⟩)).2).foldl
        pushBin
        (times.foldl (stepChunkedU bin_width include_zeros)
          (⟨[], []⟩, ⟨a / bin_width * bin_width, 0⟩)).1))

/-! Basic facts about the `range` model. -/

lemma mem_rangeStepAux {x : Nat} :
    ∀ {n a b step : Nat}, x ∈ rangeStepAux n a b step → a ≤ x ∧ x < b := by
  intro n
  induction n with
  | zero => intro a b step h; simp [rangeStepAux] at h
  | succ n ih =>
      intro a b step h
      rw [rangeStepAux] at h
      by_cases hc : 0 < step ∧ a < b
      · rw [if_pos hc] at h
        rcases List.mem_cons.1 h with rfl | h'
        · exact ⟨le_refl x, hc.2⟩
        · obtain ⟨h1, h2⟩ := ih h'
          exact ⟨le_trans (Nat.le_add_right a step) h1, h2⟩
      · rw [if_neg hc] at h; simp at h

lemma mem_rangeStep {x a b step : Nat} (h : x ∈ rangeStep a b step) : a ≤ x ∧ x < b :=
  mem_rangeStepAux h

lemma rangeStepAux_dvd {w x : Nat} :
    ∀ {n a b : Nat}, w ∣ a → x ∈ rangeStepAux n a b w → w ∣ x := by
  intro n
  induction n with
  | zero => intro a b _ h; simp [rangeStepAux] at h
  | succ n ih =>
      intro a b hd h
      rw [rangeStepAux] at h
      by_cases hc : 0 < w ∧ a < b
      · rw [if_pos hc] at h
        rcases List.mem_cons.1 h with rfl | h'
        · exact hd
        · exact ih (Nat.dvd_add hd dvd_rfl) h'
      · rw [if_neg hc] at h; simp at h

lemma rangeStep_dvd {w a b x : Nat} (hd : w ∣ a) (h : x ∈ rangeStep a b w) : w ∣ x :=
  rangeStepAux_dvd hd h

lemma rangeStepAux_pairwise :
    ∀ {n a b step : Nat}, (rangeStepAux n a b step).Pairwise (· < ·) := by
  intro n
  induction n with
  | zero => intro a b step; simp [rangeStepAux]
  | succ n ih =>
      intro a b step
      rw [rangeStepAux]
      by_cases hc : 0 < step ∧ a < b
      · rw [if_pos hc]
        refine List.Pairwise.cons (fun x hx => ?_) ih
        have := (mem_rangeStepAux hx).1
        omega
      · rw [if_neg hc]; exact List.Pairwise.nil

lemma rangeStep_pairwise (a b step : Nat) : (rangeStep a b step).Pairwise (· < ·) :=
  rangeStepAux_pairwise

/-! Facts about the synthesized zero bins. -/

/-- Ordering of bins by start time, the relation the emission order satisfies. -/
def binLt (x y : Bin) : Prop := x.start_t < y.start_t

lemma mem_zeroRange {a b w : Nat} {z : Bin} (hz : z ∈ zeroRange a b w) :
    a ≤ z.start_t ∧ z.start_t < b ∧ z.count = 0 := by
  obtain ⟨j, hj, rfl⟩ := List.mem_map.1 hz
  obtain ⟨h1, h2⟩ := mem_rangeStep hj
  exact ⟨h1, h2, rfl⟩

lemma zeroRange_dvd {a b w : Nat} (hd : w ∣ a) {z : Bin} (hz : z ∈ zeroRange a b w) :
    w ∣ z.start_t := by
  obtain ⟨j, hj, rfl⟩ := List.mem_map.1 hz
  exact rangeStep_dvd hd hj

lemma zeroRange_pairwise (a b w : Nat) : (zeroRange a b w).Pairwise binLt := by
  exact List.Pairwise.map _ (fun x y h => h) (rangeStep_pairwise a b w)

lemma zeroRange_map_wrap (a b w : Nat) : (zeroRange a b w).map wrapCount = zeroRange a b w := by
  simp [zeroRange, List.map_map, Function.comp, wrapCount]

/-! The chunked buffer concatenates to plain list accumulation. -/

lemma hstack_pushBin (cs : ChunkSt) (b : Bin) : hstack (pushBin cs b) = hstack cs ++ [b] := by
  unfold pushBin hstack
  by_cases h : (cs.chunk ++ [b]).length = chunk_sz
  · rw [if_pos h]; simp
  · rw [if_neg h]; simp

lemma hstack_foldl_pushBin (l : List Bin) :
    ∀ cs : ChunkSt, hstack (l.foldl pushBin cs) = hstack cs ++ l := by
  induction l with
  | nil => intro cs; simp
  | cons b l ih =>
      intro cs
      rw [List.foldl_cons, ih, hstack_pushBin]
      simp

lemma foldl_stepChunked_eq (w : Nat) (iz : Bool) (ts : List Nat) :
    ∀ (cs : ChunkSt) (out : List Bin) (s : Scal), hstack cs = out →
      hstack (ts.foldl (stepChunked w iz) (cs, s)).1 = (ts.foldl (stepList w iz) (out, s)).1
      ∧ (ts.foldl (stepChunked w iz) (cs, s)).2 = (ts.foldl (stepList w iz) (out, s)).2 := by
  induction ts with
  | nil => intro cs out s h; exact ⟨h, rfl⟩
  | cons t ts ih =>
      intro cs out s h
      rw [List.foldl_cons, List.foldl_cons]
      exact ih _ _ _ (by simp only [stepChunked, stepList]; rw [hstack_foldl_pushBin, h])

/-- The chunk-and-concatenate buffering agrees with a single grown list. -/
lemma bin_photons_eq_list (times : List Nat) (w : Nat) (st e : Option Nat) (iz : Bool) :
    bin_photons times w st e iz = bin_photons_list times w st e iz := by
  unfold bin_photons bin_photons_list
  cases anchor times st with
  | none => rfl
  | some a =>
      obtain ⟨h1, h2⟩ :=
        foldl_stepChunked_eq w iz times ⟨[], []⟩ [] ⟨a / w * w, 0⟩ (by simp [hstack])
      simp only [Option.map_some']
      rw [hstack_foldl_pushBin, h1, h2]

/-! Arithmetic facts about the floor alignment `t / w * w`. -/

lemma align_le_self (t w : Nat) : t / w * w ≤ t := Nat.div_mul_le_self t w

lemma dvd_align (t w : Nat) : w ∣ t / w * w := ⟨t / w, Nat.mul_comm (t / w) w⟩

lemma le_align_of_dvd_le {w m t : Nat} (hw : 0 < w) (hd : w ∣ m) (hm : m ≤ t) :
    m ≤ t / w * w := by
  obtain ⟨k, rfl⟩ := hd
  have hk : k ≤ t / w := (Nat.le_div_iff_mul_le hw).2 (by rw [Nat.mul_comm]; exact hm)
  calc w * k = k * w := Nat.mul_comm w k
    _ ≤ t / w * w := Nat.mul_le_mul_right w hk

/-- Folding preserves an invariant when every step from a list element does. -/
lemma foldl_inv_mem {α β : Type} (f : β → α → β) (P : β → Prop) (Q : α → Prop)
    (hstep : ∀ b a, Q a → P b → P (f b a)) :
    ∀ (l : List α), (∀ a ∈ l, Q a) → ∀ b, P b → P (l.foldl f b) := by
  intro l
  induction l with
  | nil => intro _ b hb; exact hb
  | cons a l ih =>
      intro hQ b hb
      rw [List.foldl_cons]
      exact ih (fun x hx => hQ x (List.mem_cons_of_mem _ hx)) _
        (hstep b a (hQ a (List.mem_cons_self a l)) hb)

/-! Emission-order invariant of the loop: the bins written so far are
strictly increasing in `start_t`, all below the current `bin_start`, and
every start (the current one included) is a multiple of the bin width. -/

def EmitInv (w : Nat) (p : List Bin × Scal) : Prop :=
  p.1.Pairwise binLt
  ∧ (∀ b ∈ p.1, b.start_t < p.2.bin_start)
  ∧ w ∣ p.2.bin_start
  ∧ ∀ b ∈ p.1, w ∣ b.start_t

lemma emitInv_step (w : Nat) (hw : 0 < w) (iz : Bool) (p : List Bin × Scal) (t : Nat)
    (h : EmitInv w p) : EmitInv w (stepList w iz p t) := by
  obtain ⟨hpw, hlt, hdvd, hdall⟩ := h
  unfold EmitInv stepList loopEmits loopStep
  by_cases hc : p.2.bin_start + w ≤ t
  · rw [if_pos hc, if_pos hc]
    have hdw : w ∣ p.2.bin_start + w := Nat.dvd_add hdvd dvd_rfl
    have hns : p.2.bin_start + w ≤ t / w * w := le_align_of_dvd_le hw hdw hc
    have hz : ∀ z ∈ (if iz then zeroRange (p.2.bin_start + w) (t / w * w) w else []),
        (p.2.bin_start + w ≤ z.start_t ∧ z.start_t < t / w * w) ∧ w ∣ z.start_t := by
      cases iz with
      | false => intro z hz; simp at hz
      | true =>
          intro z hz
          simp only [if_true] at hz
          obtain ⟨h1, h2, _⟩ := mem_zeroRange hz
          exact ⟨⟨h1, h2⟩, zeroRange_dvd hdw hz⟩
    have hzp : (if iz then zeroRange (p.2.bin_start + w) (t / w * w) w else []).Pairwise binLt := by
      cases iz with
      | false => simp
      | true => simpa using zeroRange_pairwise _ _ _
    refine ⟨?_, ?_, dvd_align t w, ?_⟩
    · refine (List.pairwise_append).2 ⟨hpw, ?_, ?_⟩
      · refine List.Pairwise.cons (fun z hzin => ?_) hzp
        have := (hz z hzin).1.1
        show p.2.bin_start < z.start_t
        omega
      · intro x hx y hy
        have hxlt := hlt x hx
        rcases List.mem_cons.1 hy with rfl | hy
        · exact hxlt
        · have := (hz y hy).1.1
          show x.start_t < y.start_t
          omega
    · intro b hb
      rcases List.mem_append.1 hb with hb | hb
      · have := hlt b hb
        show b.start_t < t / w * w
        omega
      · rcases List.mem_cons.1 hb with rfl | hb
        · show p.2.bin_start < t / w * w
          omega
        · have := (hz b hb).1.2
          exact this
    · intro b hb
      rcases List.mem_append.1 hb with hb | hb
      · exact hdall b hb
      · rcases List.mem_cons.1 hb with rfl | hb
        · exact hdvd
        · exact (hz b hb).2
  · rw [if_neg hc, if_neg hc]
    refine ⟨by simpa using hpw, ?_, hdvd, by simpa using hdall⟩
    intro b hb
    rw [List.append_nil] at hb
    exact hlt b hb

lemma emitInv_foldl (w : Nat) (hw : 0 < w) (iz : Bool) (ts : List Nat) (p : List Bin × Scal)
    (h : EmitInv w p) : EmitInv w (ts.foldl (stepList w iz) p) :=
  foldl_inv_mem (stepList w iz) (EmitInv w) (fun _ => True)
    (fun b a _ hb => emitInv_step w hw iz b a hb) ts (fun _ _ => trivial) p h

/-! Bound invariant: when every processed event is below `e` and the state
started below `e`, every written start stays below `e`. -/

def BoundInv (e : Nat) (p : List Bin × Scal) : Prop :=
  (∀ b ∈ p.1, b.start_t < e) ∧ p.2.bin_start < e

lemma boundInv_step (w : Nat) (iz : Bool) (e : Nat) (p : List Bin × Scal) (t : Nat)
    (ht : t < e) (h : BoundInv e p) : BoundInv e (stepList w iz p t) := by
  obtain ⟨h1, h2⟩ := h
  unfold BoundInv stepList loopEmits loopStep
  by_cases hc : p.2.bin_start + w ≤ t
  · rw [if_pos hc, if_pos hc]
    have hns : t / w * w ≤ t := align_le_self t w
    constructor
    · intro b hb
      rcases List.mem_append.1 hb with hb | hb
      · exact h1 b hb
      · rcases List.mem_cons.1 hb with rfl | hb
        · exact h2
        · have hzz : b.start_t < t / w * w := by
            cases iz with
            | false => simp at hb
            | true =>
                simp only [if_true] at hb
                exact (mem_zeroRange hb).2.1
          show b.start_t < e
          omega
    · show t / w * w < e
      omega
  · rw [if_neg hc, if_neg hc]
    refine ⟨?_, h2⟩
    intro b hb
    rw [List.append_nil] at hb
    exact h1 b hb

lemma boundInv_foldl (w : Nat) (iz : Bool) (e : Nat) (ts : List Nat) (hts : ∀ t ∈ ts, t < e)
    (p : List Bin × Scal) (h : BoundInv e p) : BoundInv e (ts.foldl (stepList w iz) p) :=
  foldl_inv_mem (stepList w iz) (BoundInv e) (fun t => t < e)
    (fun b a ha hb => boundInv_step w iz e b a ha hb) ts hts p h

/-! Head invariant: until the first bin is written the current `bin_start`
still holds its initial value, and once something is written the first
written bin starts at that initial value. -/

def HeadInv (v : Nat) (p : List Bin × Scal) : Prop :=
  (p.1 = [] ∧ p.2.bin_start = v) ∨ ∃ c, p.1.head? = some ⟨v, c⟩

lemma headInv_step (w : Nat) (iz : Bool) (v : Nat) (p : List Bin × Scal) (t : Nat)
    (h : HeadInv v p) : HeadInv v (stepList w iz p t) := by
  rcases h with ⟨hnil, hbs⟩ | ⟨c, hc⟩
  · unfold HeadInv stepList loopEmits loopStep
    rw [hnil]
    by_cases hcr : p.2.bin_start + w ≤ t
    · rw [if_pos hcr, if_pos hcr]
      right
      exact ⟨p.2.bin_count, by rw [hbs]; simp⟩
    · rw [if_neg hcr, if_neg hcr]
      left
      exact ⟨by simp, hbs⟩
  · right
    refine ⟨c, ?_⟩
    show (p.1 ++ loopEmits w iz p.2 t).head? = some ⟨v, c⟩
    cases hp : p.1 with
    | nil => rw [hp] at hc; simp at hc
    | cons x xs =>
        rw [hp] at hc
        simpa using hc

lemma headInv_foldl (w : Nat) (iz : Bool) (v : Nat) (ts : List Nat) (p : List Bin × Scal)
    (h : HeadInv v p) : HeadInv v (ts.foldl (stepList w iz) p) :=
  foldl_inv_mem (stepList w iz) (HeadInv v) (fun _ => True)
    (fun b a _ hb => headInv_step w iz v b a hb) ts (fun _ _ => trivial) p h

/-! The 16-bit counter is the exact counter reduced modulo 2^16,
pointwise on every written bin. -/

lemma loopEmits_wrap (w : Nat) (iz : Bool) (s sW : Scal) (t : Nat)
    (h1 : s.bin_start = sW.bin_start) (h2 : s.bin_count = sW.bin_count % 65536) :
    loopEmits w iz s t = (loopEmits w iz sW t).map wrapCount := by
  unfold loopEmits
  rw [h1]
  by_cases hc : sW.bin_start + w ≤ t
  · rw [if_pos hc, if_pos hc, List.map_cons]
    congr 1
    · show Bin.mk sW.bin_start s.bin_count = wrapCount ⟨sW.bin_start, sW.bin_count⟩
      unfold wrapCount
      rw [h2]
    · cases iz with
      | false => rfl
      | true => simp [zeroRange_map_wrap]
  · rw [if_neg hc, if_neg hc]
    rfl

lemma loopStep_wrap (w : Nat) (s sW : Scal) (t : Nat)
    (h1 : s.bin_start = sW.bin_start) (h2 : s.bin_count = sW.bin_count % 65536) :
    (loopStep w s t).bin_start = (loopStepWide w sW t).bin_start
    ∧ (loopStep w s t).bin_count = (loopStepWide w sW t).bin_count % 65536 := by
  unfold loopStep loopStepWide
  rw [h1]
  by_cases hc : sW.bin_start + w ≤ t
  · rw [if_pos hc, if_pos hc]
    exact ⟨rfl, rfl⟩
  · rw [if_neg hc, if_neg hc]
    refine ⟨rfl, ?_⟩
    show (s.bin_count + 1) % 65536 = (sW.bin_count + 1) % 65536
    rw [h2, Nat.mod_add_mod]

lemma foldl_wrap (w : Nat) (iz : Bool) (ts : List Nat) :
    ∀ (out outW : List Bin) (s sW : Scal),
      out = outW.map wrapCount → s.bin_start = sW.bin_start →
      s.bin_count = sW.bin_count % 65536 →
      (ts.foldl (stepList w iz) (out, s)).1
        = ((ts.foldl (stepListWide w iz) (outW, sW)).1).map wrapCount
      ∧ (ts.foldl (stepList w iz) (out, s)).2.bin_start
        = (ts.foldl (stepListWide w iz) (outW, sW)).2.bin_start
      ∧ (ts.foldl (stepList w iz) (out, s)).2.bin_count
        = (ts.foldl (stepListWide w iz) (outW, sW)).2.bin_count % 65536 := by
  induction ts with
  | nil => intro out outW s sW ho h1 h2; exact ⟨ho, h1, h2⟩
  | cons t ts ih =>
      intro out outW s sW ho h1 h2
      rw [List.foldl_cons, List.foldl_cons]
      exact ih _ _ _ _
        (by
          simp only [stepList, stepListWide]
          rw [ho, List.map_append, loopEmits_wrap w iz s sW t h1 h2])
        (loopStep_wrap w s sW t h1 h2).1
        (loopStep_wrap w s sW t h1 h2).2

lemma trailing_map_wrap (w : Nat) (iz : Bool) (e : Option Nat) (s sW : Scal)
    (h1 : s.bin_start = sW.bin_start) :
    trailing w iz e s = (trailing w iz e sW).map wrapCount := by
  unfold trailing
  cases e with
  | none => rfl
  | some e' =>
      rw [h1]
      cases iz with
      | false => rfl
      | true => simp [zeroRange_map_wrap]

/-- Shared shape of the emitted sequence: strict monotonicity and alignment
of every written start, trailing zero bins included. -/
lemma emitted_props (w : Nat) (hw : 0 < w) (iz : Bool) (e : Option Nat) (ts : List Nat)
    (a : Nat) (F : List Bin × Scal)
    (hF : F = ts.foldl (stepList w iz) ([], ⟨a / w * w, 0⟩)) :
    (F.1 ++ trailing w iz e F.2).Pairwise binLt
    ∧ ∀ b ∈ F.1 ++ trailing w iz e F.2, w ∣ b.start_t := by
  have hInv : EmitInv w F := by
    rw [hF]
    exact emitInv_foldl w hw iz ts _
      ⟨List.Pairwise.nil, by intro b hb; simp at hb, dvd_align a w, by intro b hb; simp at hb⟩
  obtain ⟨P1, P2, P3, P4⟩ := hInv
  have hdw : w ∣ F.2.bin_start + w := Nat.dvd_add P3 dvd_rfl
  have hTmem : ∀ z ∈ trailing w iz e F.2, F.2.bin_start + w ≤ z.start_t ∧ w ∣ z.start_t := by
    intro z hz
    unfold trailing at hz
    cases e with
    | none => simp at hz
    | some e' =>
        cases iz with
        | false => simp at hz
        | true =>
            simp only [if_true] at hz
            exact ⟨(mem_zeroRange hz).1, zeroRange_dvd hdw hz⟩
  have hTpw : (trailing w iz e F.2).Pairwise binLt := by
    unfold trailing
    cases e with
    | none => simp
    | some e' =>
        cases iz with
        | false => simp
        | true => simpa using zeroRange_pairwise _ _ _
  constructor
  · refine (List.pairwise_append).2 ⟨P1, hTpw, ?_⟩
    intro x hx z hz
    have h1 := P2 x hx
    have h2 := (hTmem z hz).1
    show x.start_t < z.start_t
    omega
  · intro b hb
    rcases List.mem_append.1 hb with hb | hb
    · exact P4 b hb
    · exact (hTmem b hb).2

/-- C1: Count conservation fails on the code. For the sorted input
`times = [0]` with `bin_width = 5` and no explicit range, the sum of all
emitted counts is 0, yet the input holds 1 event: the final in-progress
bin is never written out after the loop. -/
theorem count_conservation_fails_on_code :
    (bin_photons [0] 5 none none true).map (fun l => (l.map Bin.count).sum) = some 0
    ∧ ([0] : List Nat).length = 1 := by decide

/-- C2: The final in-progress bin is not emitted. The spec scenario
`times = [0, 0, 5, 5, 5, 12]`, `bin_width = 5`, `include_zeros = true`
produces only `[(0,2), (5,3)]`: the claimed final entry `(10,1)` holding
the last event is missing, because no write of `(bin_start, bin_count)`
follows the loop. -/
theorem final_bin_never_emitted :
    bin_photons [0, 0, 5, 5, 5, 12] 5 none none true = some [⟨0, 2⟩, ⟨5, 3⟩] := by decide

/-- C3 counterexample: an explicit `end_t` does not truncate the output.
With `times = [0, 100, 200]`, `bin_width = 5`, `end_t = 10`, the code emits
an entry with `start_t = 100 ≥ end_t`, refuting the claim that every
emitted entry has `start_t` strictly below `end_t`. -/
theorem end_t_truncation_counterexample :
    bin_photons [0, 100, 200] 5 none (some 10) false = some [⟨0, 1⟩, ⟨100, 1⟩]
    ∧ ¬ (100 < 10) := by decide

/-- C3 amended: `end_t` bounds only the synthesized trailing zero bins, not
bins produced by events; the output is confined to `start_t < end_t`
exactly when every event (and any provided `start_t`) lies below `end_t`. -/
theorem end_t_bounds_when_events_below (times : List Nat) (bin_width : Nat)
    (start_t : Option Nat) (e : Nat) (include_zeros : Bool) (out : List Bin)
    (hw : 0 < bin_width) (hts : ∀ t ∈ times, t < e)
    (hst : ∀ s, start_t = some s → s < e)
    (hout : bin_photons times bin_width start_t (some e) include_zeros = some out) :
    ∀ b ∈ out, b.start_t < e := by
  rw [bin_photons_eq_list] at hout
  unfold bin_photons_list at hout
  obtain ⟨a, ha, rfl⟩ := Option.map_eq_some'.1 hout
  have hae : a < e := by
    cases start_t with
    | some s => exact hst a ha
    | none => exact hts a (List.mem_of_mem_head? (Option.mem_def.2 ha))
  have hB : BoundInv e (times.foldl (stepList bin_width include_zeros)
      ([], ⟨a / bin_width * bin_width, 0⟩)) := by
    refine boundInv_foldl bin_width include_zeros e times hts _ ⟨?_, ?_⟩
    · intro b hb; simp at hb
    · show a / bin_width * bin_width < e
      have := align_le_self a bin_width
      omega
  obtain ⟨hB1, hB2⟩ := hB
  intro b hb
  rcases List.mem_append.1 hb with hb | hb
  · exact hB1 b hb
  · unfold trailing at hb
    cases include_zeros with
    | false => simp at hb
    | true =>
        simp only [if_true] at hb
        exact (mem_zeroRange hb).2.1

/-- Witness for the amended C3 theorem at `times = [0, 20]`, `bin_width = 5`,
`end_t = 30`. -/
theorem end_t_bounds_when_events_below_witness :
    (0 < 5 ∧ ∀ t ∈ ([0, 20] : List Nat), t < 30)
    ∧ ∀ b ∈ ([⟨0, 1⟩, ⟨5, 0⟩, ⟨10, 0⟩, ⟨15, 0⟩, ⟨25, 0⟩] : List Bin), b.start_t < 30 :=
  ⟨⟨by decide, by decide⟩,
    end_t_bounds_when_events_below [0, 20] 5 none 30 true
      [⟨0, 1⟩, ⟨5, 0⟩, ⟨10, 0⟩, ⟨15, 0⟩, ⟨25, 0⟩]
      (by decide) (by decide) (fun s h => Option.noConfusion h) (by decide)⟩

/-- C4: Zero-fill completeness fails on the code. With
`times = [0, 20]`, `bin_width = 5`, `end_t = 30`, `include_zeros = true`
the emitted starts are `0, 5, 10, 15, 25`: the bin at 20 — the one holding
the last event — is skipped, so the sequence is not the gap-free
progression `0, 5, 10, 15, 20, 25` the claim requires. -/
theorem zero_fill_gap_at_last_data_bin :
    bin_photons [0, 20] 5 none (some 30) true
      = some [⟨0, 1⟩, ⟨5, 0⟩, ⟨10, 0⟩, ⟨15, 0⟩, ⟨25, 0⟩] := by decide

/-- C5: Zero-fill suppression fails on the code. With
`include_zeros = false`, `times = [10]`, `bin_width = 5` and an explicit
`start_t = 0`, the first loop iteration already crosses the first bin
boundary and writes `(0, 0)` — an emitted entry with `count = 0`. -/
theorem zero_count_bin_despite_suppression :
    bin_photons [10] 5 (some 0) none false = some [⟨0, 0⟩] := by decide

/-- C6: Empty input with no explicit `start_t` is not a defined case: the
source evaluates `times[0]` out of bounds (`IndexError`), modelled by
`none`; an empty output is never produced. -/
theorem empty_times_without_start_is_error (bin_width : Nat) (end_t : Option Nat)
    (include_zeros : Bool) :
    bin_photons [] bin_width none end_t include_zeros = none := rfl

/-- C7 counterexample: a provided `start_t` is not used literally. With
`times = [7, 20]`, `bin_width = 5`, `start_t = 7`, the first emitted entry
starts at 5 = (7 / 5) * 5, not at the provided 7: the source floor-aligns
a provided `start_t` before use. -/
theorem provided_start_not_literal_counterexample :
    bin_photons [7, 20] 5 (some 7) none true = some [⟨5, 1⟩, ⟨10, 0⟩, ⟨15, 0⟩]
    ∧ (5 : Nat) ≠ 7 := by decide

/-- C7 amended: a provided `start_t` is floor-aligned to the nearest lower
multiple of `bin_width`; whenever any bin is emitted (no explicit `end_t`),
the first emitted entry starts at `(start_t / bin_width) * bin_width`. -/
theorem provided_start_floor_aligned (times : List Nat) (bin_width s : Nat)
    (include_zeros : Bool) (out : List Bin) (b : Bin) (hw : 0 < bin_width)
    (hout : bin_photons times bin_width (some s) none include_zeros = some out)
    (hb : out.head? = some b) : b.start_t = s / bin_width * bin_width := by
  rw [bin_photons_eq_list] at hout
  unfold bin_photons_list at hout
  obtain ⟨a, ha, rfl⟩ := Option.map_eq_some'.1 hout
  have ha' : some s = some a := ha
  injection ha' with h
  subst h
  have hHI := headInv_foldl bin_width include_zeros (s / bin_width * bin_width) times
      ([], ⟨s / bin_width * bin_width, 0⟩) (Or.inl ⟨rfl, rfl⟩)
  have htr : trailing bin_width include_zeros none
      (times.foldl (stepList bin_width include_zeros)
        ([], ⟨s / bin_width * bin_width, 0⟩)).2 = [] := rfl
  rw [htr, List.append_nil] at hb
  rcases hHI with ⟨hnil, _⟩ | ⟨c, hc⟩
  · rw [hnil] at hb
    simp at hb
  · rw [hc] at hb
    injection hb with h
    rw [← h]

/-- Witness for the amended C7 theorem at `times = [7, 20]`, `start_t = 7`,
`bin_width = 5`. -/
theorem provided_start_floor_aligned_witness :
    0 < 5 ∧ Bin.start_t ⟨5, 1⟩ = 7 / 5 * 5 :=
  ⟨by decide,
    provided_start_floor_aligned [7, 20] 5 7 true [⟨5, 1⟩, ⟨10, 0⟩, ⟨15, 0⟩] ⟨5, 1⟩
      (by decide) (by decide) (by decide)⟩

/-- Agreement of the wrapped and unbounded loop folds: as long as every
processed event keeps `bin_start + bin_width` below `2^64`, the wrapped
sum is the plain sum and the two models take identical steps. -/
lemma foldl_stepChunkedU_eq (w : Nat) (iz : Bool) :
    ∀ (ts : List Nat), (∀ t ∈ ts, t + w < U64) →
      ∀ q : ChunkSt × Scal, q.2.bin_start + w < U64 →
        ts.foldl (stepChunkedU w iz) q = ts.foldl (stepChunked w iz) q
        ∧ (ts.foldl (stepChunked w iz) q).2.bin_start + w < U64 := by
  intro ts
  induction ts with
  | nil => intro _ q hq; exact ⟨rfl, hq⟩
  | cons t ts ih =>
      intro hts q hq
      have hm : (q.2.bin_start + w) % U64 = q.2.bin_start + w := Nat.mod_eq_of_lt hq
      have hstep : stepChunkedU w iz q t = stepChunked w iz q t := by
        unfold stepChunkedU stepChunked loopEmitsU loopEmits loopStepU loopStep
        rw [hm]
      have hq' : (stepChunked w iz q t).2.bin_start + w < U64 := by
        unfold stepChunked loopStep
        by_cases hc : q.2.bin_start + w ≤ t
        · rw [if_pos hc]
          have h1 : t / w * w ≤ t := align_le_self t w
          have h2 := hts t (List.mem_cons_self t ts)
          show t / w * w + w < U64
          omega
        · rw [if_neg hc]
          exact hq
      rw [List.foldl_cons, List.foldl_cons, hstep]
      exact ih (fun x hx => hts x (List.mem_cons_of_mem _ hx)) _ hq'

/-- Refinement of the unbounded model by the wrapped one: when no event
(and no provided `start_t`) lies within `bin_width` of `2^64`, the sum
`bin_start + bin_width` never wraps and the two models coincide. -/
lemma bin_photons_u64_eq_no_wrap (times : List Nat) (w : Nat) (st e : Option Nat) (iz : Bool)
    (hts : ∀ t ∈ times, t + w < U64) (hsb : ∀ s, st = some s → s + w < U64) :
    bin_photons_u64 times w st e iz = bin_photons times w st e iz := by
  unfold bin_photons_u64 bin_photons
  cases ha : anchor times st with
  | none => rfl
  | some a =>
      have haw : a + w < U64 := by
        cases st with
        | some s => exact hsb a ha
        | none => exact hts a (List.mem_of_mem_head? (Option.mem_def.2 ha))
      have hinit : a / w * w + w < U64 := by
        have := align_le_self a w
        omega
      obtain ⟨heq, hbound⟩ :=
        foldl_stepChunkedU_eq w iz times hts (⟨[], []⟩, ⟨a / w * w, 0⟩) hinit
      simp only [Option.map_some']
      rw [heq]
      have htr : trailingU w iz e
          (times.foldl (stepChunked w iz) (⟨[], []⟩, ⟨a / w * w, 0⟩)).2
          = trailing w iz e
            (times.foldl (stepChunked w iz) (⟨[], []⟩, ⟨a / w * w, 0⟩)).2 := by
        unfold trailingU trailing
        cases e with
        | none => rfl
        | some e' => rw [Nat.mod_eq_of_lt hbound]
      rw [htr]

/-- C8 counterexample: at timestamps within `bin_width` of `2^64` the
`uint64` sum `bin_start + bin_width` wraps to 0, the crossing comparison
holds on every iteration, and the code re-emits the same `bin_start`: the
sorted input `[2^64 - 1, 2^64 - 1]` with `bin_width = 2` yields two
entries both starting at `2^64 - 2` — neither strictly increasing nor
pairwise distinct. -/
theorem emission_order_wrap_counterexample :
    ([18446744073709551615, 18446744073709551615] : List Nat).Chain' (· ≤ ·)
    ∧ 0 < 2
    ∧ bin_photons_u64 [18446744073709551615, 18446744073709551615] 2 none none false
        = some [⟨18446744073709551614, 0⟩, ⟨18446744073709551614, 1⟩]
    ∧ ¬ ((([⟨18446744073709551614, 0⟩, ⟨18446744073709551614, 1⟩] : List Bin).map
          Bin.start_t).Pairwise (· < ·))
    ∧ ¬ ((([⟨18446744073709551614, 0⟩, ⟨18446744073709551614, 1⟩] : List Bin).map
          Bin.start_t).Pairwise (· ≠ ·)) :=
  ⟨by simp, by decide, by decide, by decide, by decide⟩

/-- C8 amended: emission-order invariant away from the `uint64` wrap. For
a sorted input, positive bin width, a provided `start_t` that is a
multiple of the bin width, and every event (and any provided `start_t`)
at most `2^64 - 1 - bin_width` — so the sum `bin_start + bin_width` never
wraps — the emitted `start_t` values are strictly increasing, pairwise
distinct, and all exact multiples of `bin_width`. -/
theorem emission_strictmono_aligned_no_wrap (times : List Nat) (bin_width : Nat)
    (start_t end_t : Option Nat) (include_zeros : Bool) (out : List Bin)
    (hw : 0 < bin_width) (hsorted : times.Chain' (· ≤ ·))
    (hst : ∀ s, start_t = some s → bin_width ∣ s)
    (hts : ∀ t ∈ times, t + bin_width < U64)
    (hsb : ∀ s, start_t = some s → s + bin_width < U64)
    (hout : bin_photons_u64 times bin_width start_t end_t include_zeros = some out) :
    (out.map Bin.start_t).Pairwise (· < ·) ∧ (out.map Bin.start_t).Pairwise (· ≠ ·)
    ∧ ∀ b ∈ out, bin_width ∣ b.start_t := by
  rw [bin_photons_u64_eq_no_wrap times bin_width start_t end_t include_zeros hts hsb,
    bin_photons_eq_list] at hout
  unfold bin_photons_list at hout
  obtain ⟨a, ha, rfl⟩ := Option.map_eq_some'.1 hout
  obtain ⟨hPW, hdvd⟩ := emitted_props bin_width hw include_zeros end_t times a _ rfl
  refine ⟨?_, ?_, hdvd⟩
  · rw [List.pairwise_map]
    exact hPW
  · rw [List.pairwise_map]
    exact hPW.imp (fun h => Nat.ne_of_lt h)

/-- Witness for the amended C8 theorem at the spec scenario input. -/
theorem emission_strictmono_aligned_no_wrap_witness :
    (0 < 5 ∧ ([0, 0, 5, 5, 5, 12] : List Nat).Chain' (· ≤ ·)
      ∧ ∀ t ∈ ([0, 0, 5, 5, 5, 12] : List Nat), t + 5 < U64)
    ∧ ((([⟨0, 2⟩, ⟨5, 3⟩] : List Bin).map Bin.start_t).Pairwise (· < ·)
      ∧ (([⟨0, 2⟩, ⟨5, 3⟩] : List Bin).map Bin.start_t).Pairwise (· ≠ ·)
      ∧ ∀ b ∈ ([⟨0, 2⟩, ⟨5, 3⟩] : List Bin), 5 ∣ b.start_t) :=
  ⟨⟨by decide, by simp, by decide⟩,
    emission_strictmono_aligned_no_wrap [0, 0, 5, 5, 5, 12] 5 none none true [⟨0, 2⟩, ⟨5, 3⟩]
      (by decide) (by simp) (fun s h => Option.noConfusion h) (by decide)
      (fun s h => Option.noConfusion h) (by decide)⟩

/-- C9: Buffering equivalence. The fixed-capacity 10,000-entry
chunk-and-concatenate buffering produces output identical, in order and
contents, to accumulating every bin in one single grown list — for all
inputs, in particular when more than one chunk is flushed. -/
theorem chunked_buffering_eq_single_buffer (times : List Nat) (bin_width : Nat)
    (start_t end_t : Option Nat) (include_zeros : Bool) :
    bin_photons times bin_width start_t end_t include_zeros
      = bin_photons_list times bin_width start_t end_t include_zeros :=
  bin_photons_eq_list times bin_width start_t end_t include_zeros

/-- C10: Count wraparound. The stored 16-bit count of every emitted bin is
the exact (unbounded) event count of that bin reduced modulo 2^16 — in
particular a bin with more than 65535 events wraps silently, with no
saturation, widening, or error. -/
theorem count_stored_mod_2_16 (times : List Nat) (bin_width : Nat)
    (start_t end_t : Option Nat) (include_zeros : Bool) :
    bin_photons times bin_width start_t end_t include_zeros
      = (bin_photons_wide times bin_width start_t end_t include_zeros).map
          (List.map wrapCount) := by
  rw [bin_photons_eq_list]
  unfold bin_photons_list bin_photons_wide
  cases anchor times start_t with
  | none => rfl
  | some a =>
      simp only [Option.map_some']
      obtain ⟨e1, e2, e3⟩ := foldl_wrap bin_width include_zeros times [] []
        ⟨a / bin_width * bin_width, 0⟩ ⟨a / bin_width * bin_width, 0⟩ rfl rfl rfl
      rw [List.map_append, e1, trailing_map_wrap bin_width include_zeros end_t _ _ e2]

end PhotonTools
